import Mathlib

/-!
# Verification of the AI trading backend ledger logic

Shallow embedding of the trading backend (NestJS service) in Lean 4.

Monetary amounts are modelled as exact rationals (`ℚ`).  The TypeScript
source computes with IEEE doubles; every claim settled here concerns the
arithmetic the source writes down (`* 0.8`, `* 1.01`, weighted averages,
balance sums), which we evaluate exactly.  Remote database writes
(`updateCashBalance`, `updateHolding`, `insertHolding`, `deleteHolding`,
`recordTrade`, `recordExchange`) are modelled as succeeding: a failed write
makes the source return early with `null`, which only cuts executions short.

* `exchangeKRWtoUSD` / `exchangeUSDtoKRW` embed
  `src/services/trading.service.ts` lines 145-243.
* `executeTrade` embeds `src/services/trading.service.ts` lines 248-412;
  its second component counts how many times the KRW→USD auto-exchange was
  attempted (instrumentation used by the no-retry-loop claim).
-/

namespace AITrading

/-- A model's per-currency cash balances (table `ai_cash_balances`). -/
structure Balances where
  krw : ℚ
  usd : ℚ
deriving DecidableEq, Repr

/-- One holding row (table `ai_portfolios`) for a fixed (model, ticker, market). -/
structure Holding where
  shares : ℚ
  avgPrice : ℚ
  currentPrice : ℚ
deriving DecidableEq, Repr

/-- Ledger state touched by `executeTrade` for one (model, ticker, market):
both cash balances and the (optional) holding row of that ticker. -/
structure LedgerState where
  krw : ℚ
  usd : ℚ
  holding : Option Holding
deriving DecidableEq, Repr

inductive Market
  | KR
  | US
deriving DecidableEq, Repr

inductive TradeType
  | BUY
  | SELL
deriving DecidableEq, Repr

/-- Embedding of `exchangeKRWtoUSD` (trading.service.ts:145-191).
On success returns the updated balances and the credited USD amount.
`none` corresponds to the source returning `{ success: false }`. -/
def exchangeKRWtoUSD (exchangeRate krwAmount : ℚ) (b : Balances) :
    Option (Balances × ℚ) :=
  let maxExchangeAmount := b.krw * 0.8
  let actualKrwAmount := min krwAmount maxExchangeAmount
  if actualKrwAmount ≤ 0 then none
  else if b.krw < actualKrwAmount then none
  else
    let usdAmount := actualKrwAmount / exchangeRate
    some (⟨b.krw - actualKrwAmount, b.usd + usdAmount⟩, usdAmount)

/-- Embedding of `exchangeUSDtoKRW` (trading.service.ts:197-243).
On success returns the updated balances and the credited KRW amount. -/
def exchangeUSDtoKRW (exchangeRate usdAmount : ℚ) (b : Balances) :
    Option (Balances × ℚ) :=
  let maxExchangeAmount := b.usd * 0.8
  let actualUsdAmount := min usdAmount maxExchangeAmount
  if actualUsdAmount ≤ 0 then none
  else if b.usd < actualUsdAmount then none
  else
    let krwAmount := actualUsdAmount * exchangeRate
    some (⟨b.krw + krwAmount, b.usd - actualUsdAmount⟩, krwAmount)

/-- Holding update performed by the BUY branch of `executeTrade`
(trading.service.ts:314-346): weighted-average cost basis on an existing
holding, fresh row at the buy price otherwise. -/
def buyHoldingUpdate (shares price : ℚ) : Option Holding → Holding
  | some h =>
      { shares := h.shares + shares
        avgPrice := (h.shares * h.avgPrice + shares * price) / (h.shares + shares)
        currentPrice := price }
  | none => { shares := shares, avgPrice := price, currentPrice := price }

/-- Cash phase of the BUY branch of `executeTrade` (trading.service.ts:263-312).
Returns the balances after the debit (or `none` when the order is rejected)
together with the number of KRW→USD auto-exchange attempts made (0 or 1). -/
def buyCashPhase (exchangeRate : ℚ) (market : Market) (totalAmount : ℚ)
    (b : Balances) : Option Balances × ℕ :=
  match market with
  | .KR =>
      if b.krw < totalAmount then (none, 0)
      else (some ⟨b.krw - totalAmount, b.usd⟩, 0)
  | .US =>
      if b.usd < totalAmount then
        let neededUSD := totalAmount - b.usd
        let neededKRW := neededUSD * exchangeRate * 1.01
        if b.krw < neededKRW then (none, 0)
        else
          match exchangeKRWtoUSD exchangeRate neededKRW b with
          | none => (none, 1)
          | some (b1, _) => (some ⟨b1.krw, b1.usd - totalAmount⟩, 1)
      else (some ⟨b.krw, b.usd - totalAmount⟩, 0)

/-- Embedding of `executeTrade` (trading.service.ts:248-412).  The first
component is the final ledger state (`none` = the source returned `null`,
which happens before any write in every rejection branch); the second
component counts KRW→USD auto-exchange attempts. -/
def executeTrade (exchangeRate : ℚ) (market : Market) (tradeType : TradeType)
    (shares price : ℚ) (s : LedgerState) : Option LedgerState × ℕ :=
  let totalAmount := shares * price
  match tradeType with
  | .BUY =>
      match buyCashPhase exchangeRate market totalAmount ⟨s.krw, s.usd⟩ with
      | (none, c) => (none, c)
      | (some b, c) =>
          (some ⟨b.krw, b.usd, some (buyHoldingUpdate shares price s.holding)⟩, c)
  | .SELL =>
      match s.holding with
      | none => (none, 0)
      | some h =>
          if h.shares < shares then (none, 0)
          else
            let b : Balances :=
              match market with
              | .KR => ⟨s.krw + totalAmount, s.usd⟩
              | .US => ⟨s.krw, s.usd + totalAmount⟩
            if h.shares = shares then (some ⟨b.krw, b.usd, none⟩, 0)
            else
              (some ⟨b.krw, b.usd,
                some ⟨h.shares - shares, h.avgPrice, price⟩⟩, 0)

end AITrading

namespace AITrading

/-- C1: the US-market BUY auto-exchange path can complete a trade while
writing a negative USD balance.  Starting from 1,100,000 KRW / 0 USD at rate
1000 ₩/$, a BUY of 1 share at $1000 passes the `krwBalance < neededKRW`
guard (needed 1,010,000 ≤ 1,100,000), but `exchangeKRWtoUSD` converts only
80% of the KRW balance (880,000 ₩ → $880), and the subsequent debit writes
usd = 880 − 1000 = −120 < 0, contradicting the non-negative-balance
invariant the specification states. -/
theorem c1_buy_auto_exchange_writes_negative_usd :
    ∃ s', (executeTrade 1000 .US .BUY 1 1000 ⟨1100000, 0, none⟩).1 = some s' ∧
      s'.usd < 0 := by
  refine ⟨⟨220000, -120, some ⟨1, 1000, 1000⟩⟩, ?_, by norm_num⟩
  simp only [executeTrade, buyCashPhase, exchangeKRWtoUSD, buyHoldingUpdate]
  norm_num [min_def]

/-- On success, `exchangeKRWtoUSD` converted exactly
`min krwAmount (krw * 0.8)` won. -/
lemma exchangeKRWtoUSD_eq_some {rate amount : ℚ} {b : Balances}
    {b' : Balances} {u : ℚ} (h : exchangeKRWtoUSD rate amount b = some (b', u)) :
    let a := min amount (b.krw * 0.8)
    0 < a ∧ a ≤ b.krw ∧ b' = ⟨b.krw - a, b.usd + a / rate⟩ ∧ u = a / rate := by
  simp only [exchangeKRWtoUSD] at h
  split_ifs at h with h1 h2
  simp only [Option.some.injEq, Prod.mk.injEq] at h
  exact ⟨lt_of_not_le h1, le_of_not_lt h2, h.1.symm, h.2.symm⟩

/-- On success, `exchangeUSDtoKRW` converted exactly
`min usdAmount (usd * 0.8)` dollars. -/
lemma exchangeUSDtoKRW_eq_some {rate amount : ℚ} {b : Balances}
    {b' : Balances} {k : ℚ} (h : exchangeUSDtoKRW rate amount b = some (b', k)) :
    let a := min amount (b.usd * 0.8)
    0 < a ∧ a ≤ b.usd ∧ b' = ⟨b.krw + a * rate, b.usd - a⟩ ∧ k = a * rate := by
  simp only [exchangeUSDtoKRW] at h
  split_ifs at h with h1 h2
  simp only [Option.some.injEq, Prod.mk.injEq] at h
  exact ⟨lt_of_not_le h1, le_of_not_lt h2, h.1.symm, h.2.symm⟩

/-- C4: every successful currency exchange converts at most 80% of the
source-currency balance (the cap the code configures; the 50% figure of the
prompts is advisory text, not enforced here), and leaves the source-currency
balance non-negative. -/
theorem c4_exchange_capped_at_fraction_and_nonnegative :
    (∀ (rate amount : ℚ) (b b' : Balances) (u : ℚ),
        exchangeKRWtoUSD rate amount b = some (b', u) →
        b.krw - b'.krw ≤ 0.8 * b.krw ∧ 0 ≤ b'.krw)
  ∧ (∀ (rate amount : ℚ) (b b' : Balances) (k : ℚ),
        exchangeUSDtoKRW rate amount b = some (b', k) →
        b.usd - b'.usd ≤ 0.8 * b.usd ∧ 0 ≤ b'.usd) := by
  constructor
  · intro rate amount b b' u h
    obtain ⟨-, hle, rfl, -⟩ := exchangeKRWtoUSD_eq_some h
    have hcap : min amount (b.krw * 0.8) ≤ b.krw * 0.8 := min_le_right _ _
    constructor
    · show b.krw - (b.krw - min amount (b.krw * 0.8)) ≤ 0.8 * b.krw
      linarith
    · show (0 : ℚ) ≤ b.krw - min amount (b.krw * 0.8)
      linarith
  · intro rate amount b b' k h
    obtain ⟨-, hle, rfl, -⟩ := exchangeUSDtoKRW_eq_some h
    have hcap : min amount (b.usd * 0.8) ≤ b.usd * 0.8 := min_le_right _ _
    constructor
    · show b.usd - (b.usd - min amount (b.usd * 0.8)) ≤ 0.8 * b.usd
      linarith
    · show (0 : ℚ) ≤ b.usd - min amount (b.usd * 0.8)
      linarith

/-- C4 witness: a concrete successful exchange of 500,000 ₩ out of a
1,000,000 ₩ balance at rate 1000 ₩/$. -/
theorem c4_witness :
    (1000000 : ℚ) - 500000 ≤ 0.8 * 1000000 ∧ (0 : ℚ) ≤ 500000 := by
  have h : exchangeKRWtoUSD 1000 500000 ⟨1000000, 0⟩ =
      some (⟨500000, 500⟩, 500) := by
    simp only [exchangeKRWtoUSD]
    norm_num [min_def]
  simpa using
    c4_exchange_capped_at_fraction_and_nonnegative.1 1000 500000
      ⟨1000000, 0⟩ ⟨500000, 500⟩ 500 h

/-- C9: a successful exchange conserves total cash value at the rate used:
`krw + usd * rate` is unchanged (exact rational arithmetic; the KRW→USD
direction needs `rate ≠ 0` since the source divides by the rate). -/
theorem c9_exchange_conserves_value :
    (∀ (rate amount : ℚ) (b b' : Balances) (u : ℚ), rate ≠ 0 →
        exchangeKRWtoUSD rate amount b = some (b', u) →
        b'.krw + b'.usd * rate = b.krw + b.usd * rate)
  ∧ (∀ (rate amount : ℚ) (b b' : Balances) (k : ℚ),
        exchangeUSDtoKRW rate amount b = some (b', k) →
        b'.krw + b'.usd * rate = b.krw + b.usd * rate) := by
  constructor
  · intro rate amount b b' u hr h
    obtain ⟨-, -, rfl, -⟩ := exchangeKRWtoUSD_eq_some h
    show b.krw - min amount (b.krw * 0.8) +
        (b.usd + min amount (b.krw * 0.8) / rate) * rate = b.krw + b.usd * rate
    field_simp
  · intro rate amount b b' k h
    obtain ⟨-, -, rfl, -⟩ := exchangeUSDtoKRW_eq_some h
    show b.krw + min amount (b.usd * 0.8) * rate +
        (b.usd - min amount (b.usd * 0.8)) * rate = b.krw + b.usd * rate
    ring

/-- The KR cash phase of a BUY never touches the USD balance. -/
lemma buyCashPhase_kr_usd {rate t : ℚ} {b b' : Balances} {c : ℕ}
    (h : buyCashPhase rate .KR t b = (some b', c)) : b'.usd = b.usd := by
  simp only [buyCashPhase] at h
  split_ifs at h
  · simp at h
  · simp only [Prod.mk.injEq, Option.some.injEq] at h
    rw [← h.1]

/-- C10: a KR-market trade (BUY or SELL) leaves the USD balance unchanged;
only the KRW balance and the holding row are written. -/
theorem c10_kr_trade_preserves_usd (rate : ℚ) (tt : TradeType) (n p : ℚ)
    (s s' : LedgerState) (h : (executeTrade rate .KR tt n p s).1 = some s') :
    s'.usd = s.usd := by
  cases tt
  case BUY =>
    simp only [executeTrade] at h
    rcases hb : buyCashPhase rate .KR (n * p) ⟨s.krw, s.usd⟩ with ⟨ob, c⟩
    rw [hb] at h
    cases ob with
    | none => simp at h
    | some b =>
        simp only [Option.some.injEq] at h
        have := buyCashPhase_kr_usd hb
        rw [← h]
        exact this
  case SELL =>
    simp only [executeTrade] at h
    cases hh : s.holding with
    | none => simp [hh] at h
    | some hold =>
        simp only [hh] at h
        split_ifs at h with h1 h2 <;> simp at h <;> rw [← h]

/-- C10 witness: a concrete KR SELL of 2 of 5 held shares at ₩200 leaves the
USD balance at its prior value. -/
theorem c10_witness :
    (⟨10400, 7, some ⟨3, 100, 200⟩⟩ : LedgerState).usd =
      (⟨10000, 7, some ⟨5, 100, 150⟩⟩ : LedgerState).usd := by
  have h : (executeTrade 1000 .KR .SELL 2 200
      ⟨10000, 7, some ⟨5, 100, 150⟩⟩).1 =
      some ⟨10400, 7, some ⟨3, 100, 200⟩⟩ := by
    simp only [executeTrade]
    norm_num
  exact c10_kr_trade_preserves_usd 1000 .SELL 2 200 _ _ h

/-- The cash phase of a BUY makes at most one auto-exchange attempt. -/
lemma buyCashPhase_attempts_le_one (rate : ℚ) (mk : Market) (t : ℚ)
    (b : Balances) : (buyCashPhase rate mk t b).2 ≤ 1 := by
  cases mk
  case KR => simp only [buyCashPhase]; split_ifs <;> simp
  case US =>
    simp only [buyCashPhase]
    split_ifs
    · simp
    · rcases exchangeKRWtoUSD rate ((t - b.usd) * rate * 1.01) b with _ | ⟨b1, u⟩ <;>
        simp
    · simp

/-- C8: `executeTrade` attempts the KRW→USD auto-exchange at most once per
call; there is no retry loop around it (the embedding is a total function,
so every call terminates). -/
theorem c8_at_most_one_auto_exchange (rate : ℚ) (mk : Market)
    (tt : TradeType) (n p : ℚ) (s : LedgerState) :
    (executeTrade rate mk tt n p s).2 ≤ 1 := by
  cases tt
  case BUY =>
    have hc := buyCashPhase_attempts_le_one rate mk (n * p) ⟨s.krw, s.usd⟩
    simp only [executeTrade]
    rcases hb : buyCashPhase rate mk (n * p) ⟨s.krw, s.usd⟩ with ⟨ob, c⟩
    rw [hb] at hc
    cases ob <;> simpa using hc
  case SELL =>
    simp only [executeTrade]
    cases hh : s.holding with
    | none => simp [hh]
    | some hold =>
        simp only [hh]
        split_ifs <;> simp

/-- C3: SELL semantics of `executeTrade`.  With a holding of `h.shares`
shares: selling exactly `h.shares` deletes the holding row; selling
`k < h.shares` leaves `h.shares - k` shares with the average price
unchanged; selling more than held is rejected with `null` (before any
write, per the source order).  With no holding every SELL is rejected. -/
theorem c3_sell_semantics :
    (∀ (rate : ℚ) (mk : Market) (s : LedgerState) (h : Holding) (k price : ℚ),
      s.holding = some h →
      ((∃ s', (executeTrade rate mk .SELL h.shares price s).1 = some s' ∧
          s'.holding = none)
       ∧ (k < h.shares →
          ∃ s', (executeTrade rate mk .SELL k price s).1 = some s' ∧
            s'.holding = some ⟨h.shares - k, h.avgPrice, price⟩)
       ∧ (h.shares < k → (executeTrade rate mk .SELL k price s).1 = none)))
  ∧ (∀ (rate : ℚ) (mk : Market) (s : LedgerState) (k price : ℚ),
      s.holding = none → (executeTrade rate mk .SELL k price s).1 = none) := by
  constructor
  · intro rate mk s h k price hs
    refine ⟨?_, ?_, ?_⟩
    · simp only [executeTrade, hs]
      split_ifs with h1
      · exact absurd h1 (lt_irrefl _)
      · exact ⟨_, rfl, rfl⟩
    · intro hk
      simp only [executeTrade, hs]
      split_ifs with h1 h2
      · exact absurd hk (not_lt.mpr h1.le)
      · exact absurd h2 (ne_of_gt hk)
      · exact ⟨_, rfl, rfl⟩
    · intro hk
      simp only [executeTrade, hs]
      rw [if_pos hk]
  · intro rate mk s k price hs
    simp only [executeTrade, hs]

/-- C3 witness: on a holding of 5 shares @ ₩100, selling 5 deletes the row,
selling 2 leaves 3 shares @ ₩100, and selling 6 is rejected. -/
theorem c3_witness :
    ((∃ s', (executeTrade 1000 .KR .SELL (5 : ℚ) 200
        ⟨10000, 7, some ⟨5, 100, 150⟩⟩).1 = some s' ∧ s'.holding = none)
     ∧ ((2 : ℚ) < 5 →
        ∃ s', (executeTrade 1000 .KR .SELL (2 : ℚ) 200
          ⟨10000, 7, some ⟨5, 100, 150⟩⟩).1 = some s' ∧
          s'.holding = some ⟨5 - 2, 100, 200⟩)
     ∧ ((5 : ℚ) < 2 → (executeTrade 1000 .KR .SELL (2 : ℚ) 200
          ⟨10000, 7, some ⟨5, 100, 150⟩⟩).1 = none)) := by
  have := c3_sell_semantics.1 1000 .KR ⟨10000, 7, some ⟨5, 100, 150⟩⟩
    ⟨5, 100, 150⟩ 2 200 rfl
  simpa using this

/-- Total share count of a list of `(shares, price)` buy orders. -/
def totalShares (buys : List (ℚ × ℚ)) : ℚ := (buys.map Prod.fst).sum

/-- Total cost `Σ sharesᵢ · priceᵢ` of a list of `(shares, price)` buy orders. -/
def totalCost (buys : List (ℚ × ℚ)) : ℚ :=
  (buys.map (fun np => np.1 * np.2)).sum

@[simp] lemma totalShares_nil : totalShares [] = 0 := rfl

@[simp] lemma totalShares_cons (n p : ℚ) (rest : List (ℚ × ℚ)) :
    totalShares ((n, p) :: rest) = n + totalShares rest := by
  simp [totalShares]

@[simp] lemma totalCost_nil : totalCost [] = 0 := rfl

@[simp] lemma totalCost_cons (n p : ℚ) (rest : List (ℚ × ℚ)) :
    totalCost ((n, p) :: rest) = n * p + totalCost rest := by
  simp [totalCost]

/-- A sequence of BUY trades on the same (model, ticker, market) executed
through `executeTrade`; stops with `none` as soon as one trade is rejected. -/
def runBuys (rate : ℚ) (mk : Market) (s : LedgerState) :
    List (ℚ × ℚ) → Option LedgerState
  | [] => some s
  | (n, p) :: rest =>
      match (executeTrade rate mk .BUY n p s).1 with
      | none => none
      | some s' => runBuys rate mk s' rest

/-- Every successful BUY leaves the holding updated by `buyHoldingUpdate`
(this is the shared tail of all four BUY cash branches in the source). -/
lemma executeTrade_buy_holding {rate : ℚ} {mk : Market} {n p : ℚ}
    {s s' : LedgerState} (h : (executeTrade rate mk .BUY n p s).1 = some s') :
    s'.holding = some (buyHoldingUpdate n p s.holding) := by
  simp only [executeTrade] at h
  rcases hb : buyCashPhase rate mk (n * p) ⟨s.krw, s.usd⟩ with ⟨ob, c⟩
  rw [hb] at h
  cases ob with
  | none => simp at h
  | some b =>
      simp only [Option.some.injEq] at h
      rw [← h]

/-- Inductive invariant for buy sequences: share count and total cost basis
(`shares · avgPrice`) accumulate additively. -/
lemma runBuys_invariant {rate : ℚ} {mk : Market} :
    ∀ (buys : List (ℚ × ℚ)) (s s' : LedgerState) (h0 : Holding),
      (∀ np ∈ buys, 0 < np.1) →
      s.holding = some h0 → 0 < h0.shares →
      runBuys rate mk s buys = some s' →
      ∃ h', s'.holding = some h' ∧ 0 < h'.shares ∧
        h'.shares = h0.shares + totalShares buys ∧
        h'.shares * h'.avgPrice = h0.shares * h0.avgPrice + totalCost buys := by
  intro buys
  induction buys with
  | nil =>
      intro s s' h0 hpos hs hpos0 hrun
      simp only [runBuys, Option.some.injEq] at hrun
      subst hrun
      exact ⟨h0, hs, hpos0, by simp, by simp⟩
  | cons np rest ih =>
      obtain ⟨n, p⟩ := np
      intro s s' h0 hpos hs hpos0 hrun
      simp only [runBuys] at hrun
      rcases hstep : (executeTrade rate mk .BUY n p s).1 with _ | s1
      · rw [hstep] at hrun; simp at hrun
      · rw [hstep] at hrun
        have hhold := executeTrade_buy_holding hstep
        rw [hs] at hhold
        have hn : 0 < n := hpos (n, p) (List.mem_cons_self _ _)
        have hpos1 : 0 < h0.shares + n := by linarith
        have hpos1' : 0 < (buyHoldingUpdate n p (some h0)).shares := by
          simpa [buyHoldingUpdate] using hpos1
        obtain ⟨h', hh', hp', hsum, hw⟩ :=
          ih s1 s' (buyHoldingUpdate n p (some h0))
            (fun np hnp => hpos np (List.mem_cons_of_mem _ hnp)) hhold hpos1' hrun
        have hupd_shares : (buyHoldingUpdate n p (some h0)).shares =
            h0.shares + n := rfl
        have hupd_w : (buyHoldingUpdate n p (some h0)).shares *
            (buyHoldingUpdate n p (some h0)).avgPrice =
            h0.shares * h0.avgPrice + n * p := by
          simp only [buyHoldingUpdate]
          rw [mul_comm, div_mul_cancel₀ _ (ne_of_gt hpos1)]
        refine ⟨h', hh', hp', ?_, ?_⟩
        · rw [hsum, hupd_shares, totalShares_cons]
          ring
        · rw [hw, hupd_w, totalCost_cons]
          ring

/-- C2: starting from no holding, a sequence of successful BUY trades on one
(model, ticker, market) ends with a holding whose share count is the total
bought and whose average price is the share-weighted mean of the buy prices
(exactly, in rational arithmetic — subsuming the spec's 1e-6 tolerance).
Positivity of each order's share count reflects the `shares <= 0` rejection
in `executeTradeDecision` (trading.service.ts:470). -/
theorem c2_buy_sequence_weighted_average (rate : ℚ) (mk : Market)
    (first : ℚ × ℚ) (rest : List (ℚ × ℚ)) (s s' : LedgerState)
    (hstart : s.holding = none)
    (hpos : ∀ np ∈ first :: rest, 0 < np.1)
    (hrun : runBuys rate mk s (first :: rest) = some s') :
    ∃ h', s'.holding = some h' ∧
      h'.shares = totalShares (first :: rest) ∧
      h'.avgPrice = totalCost (first :: rest) / totalShares (first :: rest) := by
  obtain ⟨n, p⟩ := first
  simp only [runBuys] at hrun
  rcases hstep : (executeTrade rate mk .BUY n p s).1 with _ | s1
  · rw [hstep] at hrun; simp at hrun
  · rw [hstep] at hrun
    have hhold := executeTrade_buy_holding hstep
    rw [hstart] at hhold
    have hn : 0 < n := hpos (n, p) (List.mem_cons_self _ _)
    have hn' : 0 < (buyHoldingUpdate n p none).shares := hn
    obtain ⟨h', hh', hp', hsum, hw⟩ :=
      runBuys_invariant rest s1 s' (buyHoldingUpdate n p none)
        (fun np hnp => hpos np (List.mem_cons_of_mem _ hnp)) hhold hn' hrun
    have hb_shares : (buyHoldingUpdate n p none).shares = n := rfl
    have hb_w : (buyHoldingUpdate n p none).shares *
        (buyHoldingUpdate n p none).avgPrice = n * p := rfl
    refine ⟨h', hh', ?_, ?_⟩
    · rw [hsum, hb_shares, totalShares_cons]
    · have hts : totalShares ((n, p) :: rest) = h'.shares := by
        rw [hsum, hb_shares, totalShares_cons]
      rw [hts, eq_div_iff (ne_of_gt hp'), mul_comm]
      rw [hw, hb_w, totalCost_cons]

/-- C2 witness: buying 10 shares @ ₩100 then 30 shares @ ₩200 from
1,000,000 KRW ends with 40 shares at weighted average ₩175. -/
theorem c2_witness :
    ∃ h', (⟨10000 - 1000 - 6000, 0, some ⟨40, 175, 200⟩⟩ :
        LedgerState).holding = some h' ∧
      h'.shares = totalShares [((10 : ℚ), (100 : ℚ)), (30, 200)] ∧
      h'.avgPrice = totalCost [((10 : ℚ), (100 : ℚ)), (30, 200)] /
        totalShares [((10 : ℚ), (100 : ℚ)), (30, 200)] := by
  refine c2_buy_sequence_weighted_average 1 .KR (10, 100) [(30, 200)]
    ⟨10000, 0, none⟩ _ rfl ?_ ?_
  · intro np hnp
    fin_cases hnp <;> norm_num
  · norm_num [runBuys, executeTrade, buyCashPhase, buyHoldingUpdate]

/-! ## Market calendar (`isMarketOpen`)

Embedding of `trading-scheduler.service.ts`.  Two revisions exist in the
repository: one converts a UTC epoch-millisecond timestamp to KST by adding
9 hours and reads the weekday/hour/minute with the `getUTC*` accessors
(`isMarketOpen` below), the other reads the process-local clock fields
directly (`isMarketOpenLocal` below).  `isUSDaylightSavingTime` depends on
the calendar date only; it is passed in as the boolean `isDST`, which the
KR branch never consults. -/

/-- JS `Date.getUTCDay` for an epoch-millisecond timestamp:
day 0 = Sunday; Jan 1 1970 (epoch 0) was a Thursday (= 4).
`Int.ediv`/`Int.emod` match JS floor division for the positive divisors used. -/
def utcDayOfWeek (t : ℤ) : ℤ := ((t.ediv 86400000) + 4).emod 7

/-- JS `Date.getUTCHours` for an epoch-millisecond timestamp. -/
def utcHours (t : ℤ) : ℤ := (t.ediv 3600000).emod 24

/-- JS `Date.getUTCMinutes` for an epoch-millisecond timestamp. -/
def utcMinutes (t : ℤ) : ℤ := (t.ediv 60000).emod 60

/-- Embedding of `isMarketOpen` (unnamed scheduler revision, lines 59-104):
converts `now` (UTC epoch ms) to KST and checks the trading window. -/
def isMarketOpen (isDST : Bool) (market : Market) (now : ℤ) : Bool :=
  let kstTime := now + 9 * 60 * 60 * 1000
  let kstHours := utcHours kstTime
  let kstMinutes := utcMinutes kstTime
  let kstDayOfWeek := utcDayOfWeek kstTime
  let currentTime := kstHours * 60 + kstMinutes
  match market with
  | .KR =>
      if kstDayOfWeek = 0 ∨ kstDayOfWeek = 6 then false
      else decide (9 * 60 ≤ currentTime ∧ currentTime < 15 * 60)
  | .US =>
      let estOffset : ℤ := if isDST then -4 else -5
      let estTime := now + estOffset * 60 * 60 * 1000
      let estDayOfWeek := utcDayOfWeek estTime
      if estDayOfWeek = 0 ∨ estDayOfWeek = 6 then false
      else if isDST then
        decide (22 * 60 + 30 ≤ currentTime ∨ currentTime < 5 * 60)
      else
        decide (23 * 60 + 30 ≤ currentTime ∨ currentTime < 6 * 60)

/-- Embedding of `isMarketOpen` (trading-scheduler.service.ts:58-92): reads
the local clock fields (`getHours`/`getMinutes`/`getDay`) directly. -/
def isMarketOpenLocal (isDST : Bool) (market : Market)
    (dayOfWeek hours minutes : ℤ) : Bool :=
  if dayOfWeek = 0 ∨ dayOfWeek = 6 then false
  else
    let currentTime := hours * 60 + minutes
    match market with
    | .KR => decide (9 * 60 ≤ currentTime ∧ currentTime < 15 * 60)
    | .US =>
        if isDST then
          decide (22 * 60 + 30 ≤ currentTime ∨ currentTime < 5 * 60)
        else
          decide (23 * 60 + 30 ≤ currentTime ∨ currentTime < 6 * 60)

/-- KST minute-of-day of a UTC epoch-millisecond timestamp (spec side). -/
def kstMinuteOfDay (t : ℤ) : ℤ :=
  utcHours (t + 9 * 60 * 60 * 1000) * 60 + utcMinutes (t + 9 * 60 * 60 * 1000)

/-- The timestamp falls on a KST Saturday or Sunday (spec side). -/
def isKstWeekend (t : ℤ) : Prop :=
  utcDayOfWeek (t + 9 * 60 * 60 * 1000) = 0 ∨
    utcDayOfWeek (t + 9 * 60 * 60 * 1000) = 6

/-- Spec-side restatement of the claim's words: open exactly on a KST
weekday with the KST time of day in [09:00, 15:00). -/
def krOpenSpec (t : ℤ) : Prop :=
  ¬ isKstWeekend t ∧ 9 * 60 ≤ kstMinuteOfDay t ∧ kstMinuteOfDay t < 15 * 60

lemma isMarketOpen_kr_iff (dst : Bool) (t : ℤ) :
    isMarketOpen dst .KR t = true ↔ krOpenSpec t := by
  simp only [isMarketOpen, krOpenSpec, isKstWeekend, kstMinuteOfDay]
  split_ifs with h
  · norm_num at h
    rcases h with h | h <;> simp [h]
  · norm_num at h
    push_neg at h
    simp [h.1, h.2]

lemma isMarketOpenLocal_kr_iff (dst : Bool) (d h m : ℤ) :
    isMarketOpenLocal dst .KR d h m = true ↔
      (¬(d = 0 ∨ d = 6) ∧ 9 * 60 ≤ h * 60 + m ∧ h * 60 + m < 15 * 60) := by
  simp only [isMarketOpenLocal]
  split_ifs with hw
  · rcases hw with hw | hw <;> simp [hw]
  · push_neg at hw
    simp [hw.1, hw.2]

/-- C5: `isMarketOpen('KR')` is true exactly on KST weekdays with the KST
time of day in [09:00, 15:00) — in both scheduler revisions — and is false
on every KST weekend timestamp regardless of the time of day (and of the
DST flag, which the KR branch ignores). -/
theorem c5_kr_market_hours :
    (∀ (dst : Bool) (t : ℤ), isMarketOpen dst .KR t = true ↔ krOpenSpec t)
  ∧ (∀ (dst : Bool) (d h m : ℤ), isMarketOpenLocal dst .KR d h m = true ↔
      (¬(d = 0 ∨ d = 6) ∧ 9 * 60 ≤ h * 60 + m ∧ h * 60 + m < 15 * 60))
  ∧ (∀ (dst : Bool) (t : ℤ), isKstWeekend t → isMarketOpen dst .KR t = false) := by
  refine ⟨isMarketOpen_kr_iff, isMarketOpenLocal_kr_iff, ?_⟩
  intro dst t hw
  cases hB : isMarketOpen dst .KR t with
  | false => rfl
  | true => exact absurd ((isMarketOpen_kr_iff dst t).mp hB).1 (not_not_intro hw)

/-- C5 witness: Sunday Jan 4 1970 09:00 KST (epoch 259,200,000 ms) is a KST
weekend, and the market reports closed even though the time of day is inside
the weekday trading window. -/
theorem c5_witness : isMarketOpen false .KR 259200000 = false :=
  c5_kr_market_hours.2.2 false 259200000 (Or.inl (by decide))

/-- C9 witness: the concrete exchange of the C4 witness conserves value. -/
theorem c9_witness :
    (500000 : ℚ) + 500 * 1000 = 1000000 + 0 * 1000 := by
  have h : exchangeKRWtoUSD 1000 500000 ⟨1000000, 0⟩ =
      some (⟨500000, 500⟩, 500) := by
    simp only [exchangeKRWtoUSD]
    norm_num [min_def]
  simpa using
    c9_exchange_conserves_value.1 1000 500000 ⟨1000000, 0⟩ ⟨500000, 500⟩ 500
      (by norm_num) h

/-! ## Database retry wrapper (`withRetry`, supabase.service.ts:23-60)

The wrapped operation is modelled as a function `op : ℕ → Except JsError α`
giving the outcome of the k-th attempt (1-indexed).  The trace records the
result, the number of attempts actually made, and the list of backoff
delays (in ms) slept between attempts, in order. -/

/-- A thrown JS `Error`; only its `message` is inspected by the source. -/
structure JsError where
  message : String
deriving DecidableEq, Repr

/-- JS `String.prototype.includes` on character lists. -/
def containsSub : List Char → List Char → Bool
  | [], pat => pat.isEmpty
  | c :: t, pat => pat.isPrefixOf (c :: t) || containsSub t pat

/-- JS `a.includes(b)` for strings. -/
def strIncludes (s pat : String) : Bool := containsSub s.toList pat.toList

/-- The source's transient-network-error classification:
`error instanceof Error` with a message containing one of three markers. -/
def isNetworkError (e : JsError) : Bool :=
  strIncludes e.message "fetch failed" || strIncludes e.message "ECONNRESET" ||
    strIncludes e.message "ETIMEDOUT"

/-- `private readonly MAX_RETRIES = 3` (supabase.service.ts:23). -/
def MAX_RETRIES : ℕ := 3

/-- `private readonly RETRY_DELAY_MS = 1000` (supabase.service.ts:24). -/
def RETRY_DELAY_MS : ℕ := 1000

/-- Observable outcome of one `withRetry` call. -/
structure RetryTrace (α : Type) where
  result : Except JsError α
  attemptsUsed : ℕ
  delays : List ℕ

/-- The `for (attempt = 1; attempt <= MAX_RETRIES; attempt++)` loop of
`withRetry`, with the remaining iteration count as structural fuel.  The
fuel-exhausted case corresponds to the `throw lastError` after the loop,
which is unreachable for the source's parameters (the catch branch already
re-throws at `attempt = MAX_RETRIES`). -/
def withRetryLoop {α : Type} (op : ℕ → Except JsError α) :
    ℕ → ℕ → RetryTrace α
  | 0, attempt => ⟨.error ⟨""⟩, attempt - 1, []⟩
  | fuel + 1, attempt =>
      match op attempt with
      | .ok a => ⟨.ok a, attempt, []⟩
      | .error e =>
          if isNetworkError e && decide (attempt < MAX_RETRIES) then
            let t := withRetryLoop op fuel (attempt + 1)
            ⟨t.result, t.attemptsUsed, RETRY_DELAY_MS * attempt :: t.delays⟩
          else ⟨.error e, attempt, []⟩

/-- Embedding of `withRetry` (supabase.service.ts:31-60). -/
def withRetry {α : Type} (op : ℕ → Except JsError α) : RetryTrace α :=
  withRetryLoop op MAX_RETRIES 1

/-- C6: `withRetry` makes between 1 and 3 attempts; an attempt is followed
by another one only when it failed with a classified transient network
error (so any other failure propagates immediately); the delays slept
between attempts grow linearly (`RETRY_DELAY_MS * attempt`); and the
returned outcome (error or success) is exactly the outcome of the last
attempt made. -/
theorem c6_retry_wrapper (α : Type) (op : ℕ → Except JsError α) :
    (1 ≤ (withRetry op).attemptsUsed ∧ (withRetry op).attemptsUsed ≤ MAX_RETRIES)
  ∧ (∀ k, 1 ≤ k → k < (withRetry op).attemptsUsed →
      ∃ e, op k = .error e ∧ isNetworkError e = true)
  ∧ (withRetry op).delays =
      (List.range ((withRetry op).attemptsUsed - 1)).map
        (fun i => RETRY_DELAY_MS * (i + 1))
  ∧ (∀ e, (withRetry op).result = .error e →
      op (withRetry op).attemptsUsed = .error e)
  ∧ (∀ a, (withRetry op).result = .ok a →
      op (withRetry op).attemptsUsed = .ok a) := by
  rcases h1 : op 1 with e1 | a1
  · by_cases hn1 : isNetworkError e1 = true
    · rcases h2 : op 2 with e2 | a2
      · by_cases hn2 : isNetworkError e2 = true
        · rcases h3 : op 3 with e3 | a3
          · have hw : withRetry op = ⟨.error e3, 3, [1000, 2000]⟩ := by
              simp [withRetry, withRetryLoop, MAX_RETRIES, RETRY_DELAY_MS,
                h1, h2, h3, hn1, hn2]
            rw [hw]; dsimp only
            refine ⟨⟨by norm_num, by norm_num [MAX_RETRIES]⟩, ?_, rfl, ?_, ?_⟩
            · intro k hk1 hk2
              interval_cases k
              · exact ⟨e1, h1, hn1⟩
              · exact ⟨e2, h2, hn2⟩
            · intro e he
              simp only [Except.error.injEq] at he
              rw [h3, he]
            · intro a ha
              exact absurd ha (by simp)
          · have hw : withRetry op = ⟨.ok a3, 3, [1000, 2000]⟩ := by
              simp [withRetry, withRetryLoop, MAX_RETRIES, RETRY_DELAY_MS,
                h1, h2, h3, hn1, hn2]
            rw [hw]; dsimp only
            refine ⟨⟨by norm_num, by norm_num [MAX_RETRIES]⟩, ?_, rfl, ?_, ?_⟩
            · intro k hk1 hk2
              interval_cases k
              · exact ⟨e1, h1, hn1⟩
              · exact ⟨e2, h2, hn2⟩
            · intro e he
              exact absurd he (by simp)
            · intro a ha
              simp only [Except.ok.injEq] at ha
              rw [h3, ha]
        · have hw : withRetry op = ⟨.error e2, 2, [1000]⟩ := by
            simp [withRetry, withRetryLoop, MAX_RETRIES, RETRY_DELAY_MS,
              h1, h2, hn1, hn2]
          rw [hw]; dsimp only
          refine ⟨⟨by norm_num, by norm_num [MAX_RETRIES]⟩, ?_, rfl, ?_, ?_⟩
          · intro k hk1 hk2
            have hk : k = 1 := by omega
            subst hk
            exact ⟨e1, h1, hn1⟩
          · intro e he
            simp only [Except.error.injEq] at he
            rw [h2, he]
          · intro a ha
            exact absurd ha (by simp)
      · have hw : withRetry op = ⟨.ok a2, 2, [1000]⟩ := by
          simp [withRetry, withRetryLoop, MAX_RETRIES, RETRY_DELAY_MS,
            h1, h2, hn1]
        rw [hw]; dsimp only
        refine ⟨⟨by norm_num, by norm_num [MAX_RETRIES]⟩, ?_, rfl, ?_, ?_⟩
        · intro k hk1 hk2
          have hk : k = 1 := by omega
          subst hk
          exact ⟨e1, h1, hn1⟩
        · intro e he
          exact absurd he (by simp)
        · intro a ha
          simp only [Except.ok.injEq] at ha
          rw [h2, ha]
    · have hw : withRetry op = ⟨.error e1, 1, []⟩ := by
        simp [withRetry, withRetryLoop, MAX_RETRIES, h1, hn1]
      rw [hw]; dsimp only
      refine ⟨⟨le_refl 1, by norm_num [MAX_RETRIES]⟩, ?_, rfl, ?_, ?_⟩
      · intro k hk1 hk2
        omega
      · intro e he
        simp only [Except.error.injEq] at he
        rw [h1, he]
      · intro a ha
        exact absurd ha (by simp)
  · have hw : withRetry op = ⟨.ok a1, 1, []⟩ := by
      simp [withRetry, withRetryLoop, MAX_RETRIES, h1]
    rw [hw]; dsimp only
    refine ⟨⟨le_refl 1, by norm_num [MAX_RETRIES]⟩, ?_, rfl, ?_, ?_⟩
    · intro k hk1 hk2
      omega
    · intro e he
      exact absurd he (by simp)
    · intro a ha
      simp only [Except.ok.injEq] at ha
      rw [h1, ha]

/-- C6 witness: an operation that always throws `ECONNRESET` is attempted,
retried, and its first attempt is indeed a transient network failure. -/
theorem c6_witness :
    ∃ e, (fun _ : ℕ => (Except.error ⟨"ECONNRESET"⟩ : Except JsError ℕ)) 1 =
        .error e ∧ isNetworkError e = true :=
  (c6_retry_wrapper ℕ (fun _ => .error ⟨"ECONNRESET"⟩)).2.1 1 (le_refl 1)
    (by decide)

/-! ## AI-response parsing (`parseAIResponse`, `parseToolDecision`)

`parseAIResponse` (ai-provider.service.ts:570-609) extracts the greedy
`/\x7b[\s\S]*\x7d/` regex match — first opening brace to last closing brace —
and runs `JSON.parse` on it.  `JSON.parse` is a platform built-in, so it is
modelled as an abstract parameter `jsonParse : List Char → Option Json`
(`none` = the call threw, landing in the `catch` that returns `null`).  The
source's two action checks `!parsed.action` and
`!['BUY','SELL','HOLD'].includes(parsed.action)` together accept exactly a
field strictly equal to one of those three strings (all of which are truthy);
`actionOfJson` embeds that combined test.  The remaining decision fields are
kept as raw JSON payloads: their JS `Number(...)`/default coercions are never
consulted by the claims.  Property access on a non-object (`undefined`, or a
`TypeError` landing in the same `catch`) both yield `null`, matching
`getField` returning `none`. -/

/-- JSON values, as produced by `JSON.parse`. -/
inductive Json where
  | null
  | bool (b : Bool)
  | num (q : ℚ)
  | str (s : String)
  | arr (elems : List Json)
  | obj (fields : List (String × Json))

/-- Is this JSON value an object literal? -/
def Json.isObj : Json → Bool
  | .obj _ => true
  | _ => false

/-- First binding of `name` in a JS object's field list. -/
def lookupField (fields : List (String × Json)) (name : String) : Option Json :=
  match fields with
  | [] => none
  | (k, v) :: rest => if k = name then some v else lookupField rest name

/-- JS property access `j[name]`; `none` models `undefined` (or the
`TypeError` on primitives, which the surrounding `catch` turns into `null`). -/
def getField (j : Json) (name : String) : Option Json :=
  match j with
  | .obj fields => lookupField fields name
  | _ => none

inductive TradeAction
  | BUY
  | SELL
  | HOLD
deriving DecidableEq, Repr

/-- The source's combined action validation: `!parsed.action ||
!['BUY','SELL','HOLD'].includes(parsed.action)` rejects (returns `none`)
unless the field is strictly one of the three action strings. -/
def actionOfJson : Option Json → Option TradeAction
  | some (.str "BUY") => some .BUY
  | some (.str "SELL") => some .SELL
  | some (.str "HOLD") => some .HOLD
  | _ => none

/-- The parsed trade decision; non-action fields keep their raw JSON. -/
structure TradeDecision where
  action : TradeAction
  ticker : Option Json
  stockName : Option Json
  shares : Option Json
  reasoning : Option Json
  confidence : Option Json
  scenario : Option Json
  exchange : Option Json

/-- Index of the first occurrence of `a`. -/
def firstIdxOf : List Char → Char → Option ℕ
  | [], _ => none
  | c :: t, a => if c = a then some 0 else (firstIdxOf t a).map (· + 1)

/-- Index of the last occurrence of `a`. -/
def lastIdxOf (cs : List Char) (a : Char) : Option ℕ :=
  (firstIdxOf cs.reverse a).map (fun k => cs.length - 1 - k)

/-- The greedy regex `/\x7b[\s\S]*\x7d/`: the substring from the first
opening brace to the last closing brace, provided the latter comes after
the former. -/
def extractJsonCandidate (cs : List Char) : Option (List Char) :=
  match firstIdxOf cs '\x7b', lastIdxOf cs '\x7d' with
  | some i, some j =>
      if i < j then some ((cs.drop i).take (j - i + 1)) else none
  | _, _ => none

/-- Embedding of `parseAIResponse` (ai-provider.service.ts:570-609). -/
def parseAIResponse (jsonParse : List Char → Option Json)
    (response : String) : Option TradeDecision :=
  match extractJsonCandidate response.toList with
  | none => none
  | some cand =>
      match jsonParse cand with
      | none => none
      | some parsed =>
          match actionOfJson (getField parsed "action") with
          | none => none
          | some a =>
              some { action := a
                     ticker := getField parsed "ticker"
                     stockName := getField parsed "stockName"
                     shares := getField parsed "shares"
                     reasoning := getField parsed "reasoning"
                     confidence := getField parsed "confidence"
                     scenario := getField parsed "scenario"
                     exchange := getField parsed "exchange" }

/-- Embedding of `parseToolDecision` (ai-provider.service.ts:1275-1296);
`args` is the already-parsed tool-call argument record. -/
def parseToolDecision (args : List (String × Json)) : Option TradeDecision :=
  match actionOfJson (lookupField args "action") with
  | none => none
  | some a =>
      some { action := a
             ticker := lookupField args "ticker"
             stockName := lookupField args "stockName"
             shares := lookupField args "shares"
             reasoning := lookupField args "reasoning"
             confidence := lookupField args "confidence"
             scenario := lookupField args "scenario"
             exchange := lookupField args "exchange" }

lemma firstIdxOf_drop_head {cs : List Char} {a : Char} {i : ℕ}
    (h : firstIdxOf cs a = some i) : (cs.drop i).head? = some a := by
  induction cs generalizing i with
  | nil => simp [firstIdxOf] at h
  | cons c t ih =>
      simp only [firstIdxOf] at h
      split_ifs at h with hc
      · simp only [Option.some.injEq] at h
        subst h
        simp [hc]
      · rcases hmap : firstIdxOf t a with _ | k
        · rw [hmap] at h; simp at h
        · rw [hmap] at h
          simp only [Option.map_some', Option.some.injEq] at h
          subst h
          simpa using ih hmap

/-- A successful regex extraction starts with an opening brace. -/
lemma extractJsonCandidate_head {cs m : List Char}
    (h : extractJsonCandidate cs = some m) : m.head? = some '\x7b' := by
  unfold extractJsonCandidate at h
  rcases hf : firstIdxOf cs '\x7b' with _ | i <;> rw [hf] at h
  · exact Option.noConfusion h
  · rcases hl : lastIdxOf cs '\x7d' with _ | j <;> rw [hl] at h
    · exact Option.noConfusion h
    · change (if i < j then some ((cs.drop i).take (j - i + 1)) else none) =
        some m at h
      split_ifs at h with hij
      simp only [Option.some.injEq] at h
      subst h
      have hd := firstIdxOf_drop_head hf
      cases hD : cs.drop i with
      | nil => rw [hD] at hd; simp at hd
      | cons c t =>
          rw [hD] at hd
          simp only [List.head?_cons, Option.some.injEq] at hd
          subst hd
          simp

/-- A successful regex extraction is a contiguous substring of the input. -/
lemma extractJsonCandidate_substring {cs m : List Char}
    (h : extractJsonCandidate cs = some m) : m <:+: cs := by
  unfold extractJsonCandidate at h
  rcases hf : firstIdxOf cs '\x7b' with _ | i <;> rw [hf] at h
  · exact Option.noConfusion h
  · rcases hl : lastIdxOf cs '\x7d' with _ | j <;> rw [hl] at h
    · exact Option.noConfusion h
    · change (if i < j then some ((cs.drop i).take (j - i + 1)) else none) =
        some m at h
      split_ifs at h with hij
      simp only [Option.some.injEq] at h
      subst h
      exact (List.take_prefix _ _).isInfix.trans (List.drop_suffix _ _).isInfix

/-- C7: parsing never throws (both embeddings are total functions into
`Option`), and yields `null` on every unusable input: if no contiguous
substring of the response parses as a JSON object — assuming only that a
JSON text starting with an opening brace can parse only to an object — or
if the extracted JSON's `action` field is absent or outside
BUY / SELL / HOLD, then `parseAIResponse` returns `none`; and
`parseToolDecision` returns `none` whenever its `action` argument is absent
or invalid. -/
theorem c7_unparsable_yields_null
    (jsonParse : List Char → Option Json) (response : String)
    (args : List (String × Json))
    (hobj : ∀ m j, jsonParse m = some j → m.head? = some '\x7b' →
      j.isObj = true)
    (hno : (∀ m, m <:+: response.toList → ∀ j, jsonParse m = some j →
          j.isObj = false)
        ∨ (∀ m j, extractJsonCandidate response.toList = some m →
          jsonParse m = some j → actionOfJson (getField j "action") = none))
    (hargs : actionOfJson (lookupField args "action") = none) :
    parseAIResponse jsonParse response = none ∧
      parseToolDecision args = none := by
  constructor
  · unfold parseAIResponse
    split
    · rfl
    · next cand hcand =>
        split
        · rfl
        · next parsed hparsed =>
            rcases hno with hno | hno
            · have h1 := hno cand (extractJsonCandidate_substring hcand) parsed
                hparsed
              have h2 := hobj cand parsed hparsed
                (extractJsonCandidate_head hcand)
              rw [h1] at h2
              exact absurd h2 (by simp)
            · rw [hno cand parsed hcand hparsed]
  · unfold parseToolDecision
    rw [hargs]

/-- C7 witness: a response with no JSON at all and a tool call whose action
is the invalid string PURCHASE both parse to `null`. -/
theorem c7_witness :
    parseAIResponse (fun _ => none) "no json here" = none ∧
      parseToolDecision [("action", Json.str "PURCHASE")] = none :=
  c7_unparsable_yields_null (fun _ => none) "no json here"
    [("action", Json.str "PURCHASE")]
    (fun _ j h _ => Option.noConfusion h)
    (Or.inl (fun _ _ j h => Option.noConfusion h))
    (by decide)

end AITrading
